import Mathlib

/-!
Verification of the simulated-annealing sudoku solver (`sudokuAnnealing.go`).

The embedding follows the Go source:
* a puzzle (`[][]int` of side `puzzleDim = blockXDim * blockYDim`) is a function
  `ℕ → ℕ → ℕ` together with an explicit side `n`; index `i` is the row
  (the first Go index) and `j` the column;
* costs are exact: in the Go source `costFunction` sums `math.Abs(float64(count-1))`
  over integer counts, which is exact integer arithmetic, so the cost is an `ℤ`;
* temperatures are rationals, the uniform draw of `rand.Float64()` and the value of
  `math.Exp` are reals;
* randomness is an explicit stream of draws: `rand.Intn(puzzleDim)` becomes a
  supplied natural taken modulo the side, exactly the set of values the generator
  can produce.  The rejection-sampling loop of `getNeighbour` becomes a scan of a
  finite stream returning `Option`, `none` standing for a stream that never hits a
  free cell (the loop not terminating on that stream).
-/

/-- A puzzle grid: row `i`, column `j` (Go's `puzzle[i][j]`), value `0` = blank. -/
def GridF : Type := ℕ → ℕ → ℕ

instance : Inhabited GridF := ⟨fun _ _ => 0⟩

/-- Functional update of one cell, the model of `puzzle[x][y] = v`. -/
def setCell (g : GridF) (x y v : ℕ) : GridF :=
  fun i j => if i = x ∧ j = y then v else g i j

theorem setCell_same (g : GridF) (x y v : ℕ) : setCell g x y v x y = v := by
  simp [setCell]

theorem setCell_other (g : GridF) (x y v i j : ℕ) (h : ¬(i = x ∧ j = y)) :
    setCell g x y v i j = g i j := by
  simp only [setCell, if_neg h]

/-- Number of occurrences of value `d` in the whole `n × n` grid. -/
def countVal (n : ℕ) (g : GridF) (d : ℕ) : ℕ :=
  ((Finset.range n) ×ˢ (Finset.range n)).sum fun p => if g p.1 p.2 = d then 1 else 0

/-- `rowCounts[d-1]` of `costFunction`: occurrences of value `d` in row `r`
(the loop over `puzzle[dim1][dim2]`). -/
def rowCount (n : ℕ) (g : GridF) (r d : ℕ) : ℕ :=
  ((Finset.range n).filter fun c => g r c = d).card

/-- `columnCounts[d-1]` of `costFunction`: occurrences of value `d` in column `c`
(the loop over `puzzle[dim2][dim1]`). -/
def colCount (n : ℕ) (g : GridF) (c d : ℕ) : ℕ :=
  ((Finset.range n).filter fun r => g r c = d).card

/-- `blockCounts[d-1]` of `costFunction`: occurrences of value `d` in the block at
block coordinates `(i, j)`, scanned by
`puzzle[i*blockXDim + k % blockXDim][j*blockYDim + k / blockXDim]` for `k < puzzleDim`. -/
def blockCount (blockXDim blockYDim : ℕ) (g : GridF) (i j d : ℕ) : ℕ :=
  ((Finset.range (blockXDim * blockYDim)).filter fun k =>
    g (i * blockXDim + k % blockXDim) (j * blockYDim + k / blockXDim) = d).card

/-- The cost function of the Go source: for every row and every column the sum of
`|count − 1|` over the `puzzleDim` per-digit occurrence counters, plus the same sum
for every block; blocks are enumerated by `i < horizontalBlockCount = blockYDim`
and `j < verticalBlockCount = blockXDim`.  Digit `d+1` is stored at counter index
`d` (`rowCounts[number-1]++`). -/
def costFunction (puzzle : GridF) (blockXDim blockYDim : ℕ) : ℤ :=
  let puzzleDim := blockXDim * blockYDim
  ((Finset.range puzzleDim).sum fun dim1 =>
    ((Finset.range puzzleDim).sum fun d =>
      |((rowCount puzzleDim puzzle dim1 (d + 1) : ℤ)) - 1|) +
    ((Finset.range puzzleDim).sum fun d =>
      |((colCount puzzleDim puzzle dim1 (d + 1) : ℤ)) - 1|)) +
  ((Finset.range blockYDim).sum fun i =>
    (Finset.range blockXDim).sum fun j =>
      (Finset.range puzzleDim).sum fun d =>
        |((blockCount blockXDim blockYDim puzzle i j (d + 1) : ℤ)) - 1|)

/-- A constraint-valid grid: every digit `1..n` occurs exactly once in every row,
every column, and every block. -/
def IsValidGrid (puzzle : GridF) (blockXDim blockYDim : ℕ) : Prop :=
  (∀ r < blockXDim * blockYDim, ∀ d, 1 ≤ d → d ≤ blockXDim * blockYDim →
      rowCount (blockXDim * blockYDim) puzzle r d = 1) ∧
  (∀ c < blockXDim * blockYDim, ∀ d, 1 ≤ d → d ≤ blockXDim * blockYDim →
      colCount (blockXDim * blockYDim) puzzle c d = 1) ∧
  (∀ i < blockYDim, ∀ j < blockXDim, ∀ d, 1 ≤ d → d ≤ blockXDim * blockYDim →
      blockCount blockXDim blockYDim puzzle i j d = 1)

theorem abs_sub_one_eq_zero_iff (m : ℕ) : |(m : ℤ) - 1| = 0 ↔ m = 1 := by
  rw [abs_eq_zero, sub_eq_zero]
  exact_mod_cast Iff.rfl

theorem sum_abs_counts_eq_zero_iff (n : ℕ) (f : ℕ → ℕ) :
    ((Finset.range n).sum fun d => |((f (d + 1) : ℤ)) - 1|) = 0 ↔
      ∀ d, 1 ≤ d → d ≤ n → f d = 1 := by
  rw [Finset.sum_eq_zero_iff_of_nonneg (fun d _ => abs_nonneg _)]
  constructor
  · intro h d h1 h2
    have hd : d - 1 ∈ Finset.range n := Finset.mem_range.mpr (by omega)
    have h0 := (abs_sub_one_eq_zero_iff _).mp (h _ hd)
    rwa [Nat.sub_add_cancel h1] at h0
  · intro h d hd
    have hdn := Finset.mem_range.mp hd
    exact (abs_sub_one_eq_zero_iff _).mpr
      (h (d + 1) (by omega) (by omega))

/-- C1: the cost is non-negative, and it is zero exactly when every digit `1..n`
occurs exactly once in every row, every column and every block; in particular any
fully specified constraint-valid grid has cost `0`. -/
theorem costFunction_nonneg_and_zero_iff (puzzle : GridF) (blockXDim blockYDim : ℕ)
    (hvals : ∀ i < blockXDim * blockYDim, ∀ j < blockXDim * blockYDim,
      puzzle i j ≤ blockXDim * blockYDim) :
    0 ≤ costFunction puzzle blockXDim blockYDim ∧
      (costFunction puzzle blockXDim blockYDim = 0 ↔ IsValidGrid puzzle blockXDim blockYDim) := by
  clear hvals
  refine ⟨by unfold costFunction; positivity, ?_⟩
  unfold costFunction IsValidGrid
  rw [add_eq_zero_iff_of_nonneg (by positivity) (by positivity)]
  rw [Finset.sum_eq_zero_iff_of_nonneg (fun _ _ => by positivity)]
  rw [Finset.sum_eq_zero_iff_of_nonneg (fun _ _ => by positivity)]
  constructor
  · rintro ⟨h1, h2⟩
    refine ⟨?_, ?_, ?_⟩
    · intro r hr d hd1 hd2
      have := h1 r (Finset.mem_range.mpr hr)
      rw [add_eq_zero_iff_of_nonneg (by positivity) (by positivity)] at this
      exact (sum_abs_counts_eq_zero_iff _ _).mp this.1 d hd1 hd2
    · intro c hc d hd1 hd2
      have := h1 c (Finset.mem_range.mpr hc)
      rw [add_eq_zero_iff_of_nonneg (by positivity) (by positivity)] at this
      exact (sum_abs_counts_eq_zero_iff _ _).mp this.2 d hd1 hd2
    · intro i hi j hj d hd1 hd2
      have hib := h2 i (Finset.mem_range.mpr hi)
      rw [Finset.sum_eq_zero_iff_of_nonneg (fun _ _ => by positivity)] at hib
      have hjb := hib j (Finset.mem_range.mpr hj)
      exact (sum_abs_counts_eq_zero_iff _ _).mp hjb d hd1 hd2
  · rintro ⟨hrow, hcol, hblk⟩
    refine ⟨?_, ?_⟩
    · intro r hr
      rw [add_eq_zero_iff_of_nonneg (by positivity) (by positivity)]
      exact ⟨(sum_abs_counts_eq_zero_iff _ _).mpr
          (hrow r (Finset.mem_range.mp hr)),
        (sum_abs_counts_eq_zero_iff _ _).mpr
          (hcol r (Finset.mem_range.mp hr))⟩
    · intro i hi
      rw [Finset.sum_eq_zero_iff_of_nonneg (fun _ _ => by positivity)]
      intro j hj
      exact (sum_abs_counts_eq_zero_iff _ _).mpr
        (hblk i (Finset.mem_range.mp hi) j (Finset.mem_range.mp hj))

theorem rowCount_transpose (n : ℕ) (g : GridF) (r d : ℕ) :
    rowCount n (fun a b => g b a) r d = colCount n g r d := rfl

theorem colCount_transpose (n : ℕ) (g : GridF) (c d : ℕ) :
    colCount n (fun a b => g b a) c d = rowCount n g c d := rfl

theorem unpair_mod (q r m : ℕ) (h : r < m) : (q * m + r) % m = r := by
  rw [Nat.mul_comm, Nat.mul_add_mod, Nat.mod_eq_of_lt h]

theorem unpair_div (q r m : ℕ) (h : r < m) : (q * m + r) / m = q := by
  rw [Nat.mul_comm, Nat.mul_add_div (by omega), Nat.div_eq_of_lt h, Nat.add_zero]

/-- A block of the transposed grid, scanned with the two block dimensions swapped,
holds the same occurrence counts as the mirrored block of the original grid. -/
theorem blockCount_transpose (blockXDim blockYDim : ℕ) (g : GridF) (i j d : ℕ) :
    blockCount blockYDim blockXDim (fun a b => g b a) i j d =
      blockCount blockXDim blockYDim g j i d := by
  unfold blockCount
  rcases Nat.eq_zero_or_pos blockXDim with hx | hx
  · subst hx; simp
  rcases Nat.eq_zero_or_pos blockYDim with hy | hy
  · subst hy; simp
  have hc : blockYDim * blockXDim = blockXDim * blockYDim := Nat.mul_comm _ _
  apply Finset.card_bij'
    (fun k _ => (k % blockYDim) * blockXDim + k / blockYDim)
    (fun k _ => (k % blockXDim) * blockYDim + k / blockXDim)
  · intro k hk
    simp only [Finset.mem_filter, Finset.mem_range] at hk ⊢
    obtain ⟨hklt, hkeq⟩ := hk
    have hdiv : k / blockYDim < blockXDim := by
      rw [Nat.div_lt_iff_lt_mul hy]
      omega
    have hmod : k % blockYDim < blockYDim := Nat.mod_lt _ hy
    refine ⟨by nlinarith, ?_⟩
    rw [unpair_mod _ _ _ hdiv, unpair_div _ _ _ hdiv]
    exact hkeq
  · intro k hk
    simp only [Finset.mem_filter, Finset.mem_range] at hk ⊢
    obtain ⟨hklt, hkeq⟩ := hk
    have hdiv : k / blockXDim < blockYDim := by
      rw [Nat.div_lt_iff_lt_mul hx]
      omega
    have hmod : k % blockXDim < blockXDim := Nat.mod_lt _ hx
    refine ⟨by nlinarith, ?_⟩
    rw [unpair_mod _ _ _ hdiv, unpair_div _ _ _ hdiv]
    exact hkeq
  · intro k hk
    simp only [Finset.mem_filter, Finset.mem_range] at hk
    have hdiv : k / blockYDim < blockXDim := by
      rw [Nat.div_lt_iff_lt_mul hy]
      omega
    rw [unpair_mod _ _ _ hdiv, unpair_div _ _ _ hdiv]
    rw [Nat.mul_comm, Nat.add_comm, Nat.mod_add_div]
  · intro k hk
    simp only [Finset.mem_filter, Finset.mem_range] at hk
    have hdiv : k / blockXDim < blockYDim := by
      rw [Nat.div_lt_iff_lt_mul hx]
      omega
    rw [unpair_mod _ _ _ hdiv, unpair_div _ _ _ hdiv]
    rw [Nat.mul_comm, Nat.add_comm, Nat.mod_add_div]

/-- C9: transposing the grid and swapping the two block dimensions leaves the cost
unchanged. -/
theorem costFunction_transpose (puzzle : GridF) (blockXDim blockYDim : ℕ) :
    costFunction (fun i j => puzzle j i) blockYDim blockXDim =
      costFunction puzzle blockXDim blockYDim := by
  unfold costFunction
  simp only [Nat.mul_comm blockYDim blockXDim]
  congr 1
  · apply Finset.sum_congr rfl
    intro dim1 _
    rw [add_comm]
    rfl
  · rw [Finset.sum_comm]
    apply Finset.sum_congr rfl
    intro i _
    apply Finset.sum_congr rfl
    intro j _
    apply Finset.sum_congr rfl
    intro d _
    rw [blockCount_transpose]

/-- A concrete fully specified, constraint-valid 4×4 puzzle (`blockXDim = blockYDim = 2`). -/
def fullGrid4 : GridF := fun i j =>
  ([[1, 2, 3, 4], [3, 4, 1, 2], [2, 1, 4, 3], [4, 3, 2, 1]].getD i []).getD j 0

theorem costFunction_nonneg_and_zero_iff_witness :
    (∀ i < 2 * 2, ∀ j < 2 * 2, fullGrid4 i j ≤ 2 * 2) ∧
      (0 ≤ costFunction fullGrid4 2 2 ∧
        (costFunction fullGrid4 2 2 = 0 ↔ IsValidGrid fullGrid4 2 2)) :=
  ⟨by decide, costFunction_nonneg_and_zero_iff fullGrid4 2 2 (by decide)⟩

/-- The rejection-sampling loop of `getNeighbour`
(`for originalPuzzle[x][y] > 0 { redraw }`): scan a stream of raw draws — each
`rand.Intn(puzzleDim)` draw is a supplied natural reduced `% puzzleDim` — and
return the first coordinate pair that is not a clue.  `none` models a stream on
which the loop never exits. -/
def findFreeCell (originalPuzzle : GridF) (puzzleDim : ℕ) :
    List (ℕ × ℕ) → Option (ℕ × ℕ)
  | [] => none
  | p :: rest =>
    if originalPuzzle (p.1 % puzzleDim) (p.2 % puzzleDim) > 0 then
      findFreeCell originalPuzzle puzzleDim rest
    else some (p.1 % puzzleDim, p.2 % puzzleDim)

/-- The parallel assignment
`neighbourPuzzle[x1][y1], neighbourPuzzle[x2][y2] = neighbourPuzzle[x2][y2], neighbourPuzzle[x1][y1]`. -/
def swapCells (g : GridF) (p q : ℕ × ℕ) : GridF :=
  setCell (setCell g p.1 p.2 (g q.1 q.2)) q.1 q.2 (g p.1 p.2)

/-- `getNeighbour`: copy the current puzzle and perform `swapCount` swaps, each
between two rejection-sampled non-clue cells.  One stream pair per swap; `none`
models an execution in which some rejection loop never terminates (or the supply
of random draws is exhausted). -/
def getNeighbour (currentPuzzle : GridF) (swapCount : ℕ) (originalPuzzle : GridF)
    (puzzleDim : ℕ) (rs : List (List (ℕ × ℕ) × List (ℕ × ℕ))) : Option GridF :=
  match swapCount, rs with
  | 0, _ => some currentPuzzle
  | _ + 1, [] => none
  | k + 1, s :: rest =>
    match findFreeCell originalPuzzle puzzleDim s.1,
        findFreeCell originalPuzzle puzzleDim s.2 with
    | some p1, some p2 =>
        getNeighbour (swapCells currentPuzzle p1 p2) k originalPuzzle puzzleDim rest
    | _, _ => none

theorem findFreeCell_blank (originalPuzzle : GridF) (puzzleDim : ℕ)
    (s : List (ℕ × ℕ)) (p : ℕ × ℕ)
    (h : findFreeCell originalPuzzle puzzleDim s = some p) :
    originalPuzzle p.1 p.2 = 0 := by
  induction s with
  | nil => simp [findFreeCell] at h
  | cons q rest ih =>
    rw [findFreeCell] at h
    split at h
    · exact ih h
    · next hfree =>
      cases h
      show originalPuzzle (q.1 % puzzleDim) (q.2 % puzzleDim) = 0
      omega

theorem findFreeCell_lt (originalPuzzle : GridF) (puzzleDim : ℕ)
    (hn : 0 < puzzleDim) (s : List (ℕ × ℕ)) (p : ℕ × ℕ)
    (h : findFreeCell originalPuzzle puzzleDim s = some p) :
    p.1 < puzzleDim ∧ p.2 < puzzleDim := by
  induction s with
  | nil => simp [findFreeCell] at h
  | cons q rest ih =>
    rw [findFreeCell] at h
    split at h
    · exact ih h
    · cases h
      exact ⟨Nat.mod_lt _ hn, Nat.mod_lt _ hn⟩

theorem swapCells_frame (g : GridF) (p q : ℕ × ℕ) (i j : ℕ)
    (hp : ¬(i = p.1 ∧ j = p.2)) (hq : ¬(i = q.1 ∧ j = q.2)) :
    swapCells g p q i j = g i j := by
  unfold swapCells
  rw [setCell_other _ _ _ _ _ _ hq, setCell_other _ _ _ _ _ _ hp]

theorem getNeighbour_frame_aux (originalPuzzle : GridF) (puzzleDim : ℕ) :
    ∀ (swapCount : ℕ) (currentPuzzle : GridF)
      (rs : List (List (ℕ × ℕ) × List (ℕ × ℕ))) (g' : GridF),
      getNeighbour currentPuzzle swapCount originalPuzzle puzzleDim rs = some g' →
      ∀ i j, originalPuzzle i j > 0 → g' i j = currentPuzzle i j := by
  intro swapCount
  induction swapCount with
  | zero =>
    intro cur rs g' h i j _
    rw [getNeighbour] at h
    cases h
    rfl
  | succ k ih =>
    intro cur rs g' h i j hclue
    match rs with
    | [] => rw [getNeighbour] at h; cases h
    | s :: rest =>
      rw [getNeighbour] at h
      cases h1 : findFreeCell originalPuzzle puzzleDim s.1 with
      | none => rw [h1] at h; cases h
      | some p1 =>
        cases h2 : findFreeCell originalPuzzle puzzleDim s.2 with
        | none => rw [h1, h2] at h; cases h
        | some p2 =>
          rw [h1, h2] at h
          have hb1 := findFreeCell_blank _ _ _ _ h1
          have hb2 := findFreeCell_blank _ _ _ _ h2
          have hstep := ih (swapCells cur p1 p2) rest g' h i j hclue
          rw [hstep]
          apply swapCells_frame
          · rintro ⟨rfl, rfl⟩; omega
          · rintro ⟨rfl, rfl⟩; omega

/-- C2: whenever `getNeighbour` produces a neighbour, it agrees with the input
candidate grid at every clue position (the input grid itself is untouched: the Go
function mutates only the fresh `copyPuzzle` copy, which the functional embedding
renders by construction). -/
theorem getNeighbour_preserves_clues (currentPuzzle originalPuzzle : GridF)
    (swapCount puzzleDim : ℕ) (rs : List (List (ℕ × ℕ) × List (ℕ × ℕ))) (g' : GridF)
    (hk : 1 ≤ swapCount)
    (hblank : ∃ i < puzzleDim, ∃ j < puzzleDim, originalPuzzle i j = 0)
    (h : getNeighbour currentPuzzle swapCount originalPuzzle puzzleDim rs = some g') :
    ∀ i j, originalPuzzle i j > 0 → g' i j = currentPuzzle i j :=
  getNeighbour_frame_aux originalPuzzle puzzleDim swapCount currentPuzzle rs g' h

/-- A concrete 2×2 clue grid (`blockXDim = 2`, `blockYDim = 1`) with one clue and
three blank cells. -/
def clueGrid2 : GridF := fun i j => ([[1, 0], [0, 0]].getD i []).getD j 0

/-- A concrete 2×2 candidate grid for `clueGrid2`. -/
def candGrid2 : GridF := fun i j => ([[1, 2], [2, 1]].getD i []).getD j 0

theorem getNeighbour_preserves_clues_witness :
    1 ≤ 1 ∧
      (∃ i < 2, ∃ j < 2, clueGrid2 i j = 0) ∧
      getNeighbour candGrid2 1 clueGrid2 2 [([(0, 1)], [(1, 0)])] =
        some (swapCells candGrid2 (0, 1) (1, 0)) ∧
      ∀ i j, clueGrid2 i j > 0 →
        swapCells candGrid2 (0, 1) (1, 0) i j = candGrid2 i j :=
  ⟨le_refl 1, by decide, rfl,
    getNeighbour_preserves_clues candGrid2 clueGrid2 1 2 [([(0, 1)], [(1, 0)])]
      (swapCells candGrid2 (0, 1) (1, 0)) (le_refl 1) (by decide) rfl⟩

/-- The greedy exchange pass of `anneal`: scan rungs from hottest to coldest
(`i = R−1` down to `1`) and swap slots `i` and `i−1` (both solution and cost, kept
here as one pair) whenever `cost[i] < cost[i−1]`.  The recursion processes the
tail (higher rungs) first, then compares the head with the updated rung `1`,
exactly the descending order of the Go loop. -/
def exchangePass : List (GridF × ℤ) → List (GridF × ℤ)
  | [] => []
  | x :: xs =>
    match exchangePass xs with
    | [] => [x]
    | y :: ys => if y.2 < x.2 then y :: x :: ys else x :: y :: ys

/-- The blank coordinates of the original puzzle, collected row by row
(`emptySpots` of `randomInitialization`). -/
def emptySpotsList (originalPuzzle : GridF) (puzzleDim : ℕ) : List (ℕ × ℕ) :=
  (List.range puzzleDim).flatMap fun i =>
    ((List.range puzzleDim).filter fun j => originalPuzzle i j = 0).map fun j => (i, j)

/-- Swap-with-last removal of a spot:
`emptySpots[spotIndex] = emptySpots[len(emptySpots)-1]; emptySpots = emptySpots[0 : len-1]`. -/
def removeSpot (spots : List (ℕ × ℕ)) (idx : ℕ) : List (ℕ × ℕ) :=
  (spots.set idx (spots.getD (spots.length - 1) (0, 0))).dropLast

/-- One digit's placement loop of `randomInitialization`: `count` times, draw a
random remaining empty spot (`rand.Intn(len(emptySpots))` = raw draw mod length),
write the digit there and remove the spot. -/
def placeDigit (remainingNumber : ℕ) :
    ℕ → GridF × List (ℕ × ℕ) × List ℕ → GridF × List (ℕ × ℕ) × List ℕ
  | 0, st => st
  | count + 1, (g, spots, rng) =>
    let idx := rng.headD 0 % spots.length
    let spot := spots.getD idx (0, 0)
    placeDigit remainingNumber count
      (setCell g spot.1 spot.2 remainingNumber, removeSpot spots idx, rng.tail)

/-- `randomInitialization`: start from the original puzzle (clues copied, blanks
`0`), give every digit `d` the remaining count `puzzleDim − occurrences(d)`, and
place every remaining digit on random empty spots.  `order` is the iteration
order of the Go `remainingNumbers` map (any permutation of `1..puzzleDim`),
`rng` the stream of raw random draws. -/
def randomInitialization (originalPuzzle : GridF) (puzzleDim : ℕ)
    (order : List ℕ) (rng : List ℕ) : GridF :=
  (order.foldl
    (fun st d => placeDigit d (puzzleDim - countVal puzzleDim originalPuzzle d) st)
    (originalPuzzle, emptySpotsList originalPuzzle puzzleDim, rng)).1

theorem length_removeSpot (spots : List (ℕ × ℕ)) (idx : ℕ) :
    (removeSpot spots idx).length = spots.length - 1 := by
  simp [removeSpot]

theorem removeSpot_getElem (spots : List (ℕ × ℕ)) (idx k : ℕ) (hidx : idx < spots.length)
    (hk2 : k < (removeSpot spots idx).length) (hlast : spots.length - 1 < spots.length)
    (hkk : k < spots.length) :
    (removeSpot spots idx).get ⟨k, hk2⟩ =
      if idx = k then spots.get ⟨spots.length - 1, hlast⟩ else spots.get ⟨k, hkk⟩ := by
  rw [List.get_eq_getElem]
  unfold removeSpot
  rw [List.getElem_dropLast, List.getElem_set]
  split
  · exact List.getD_eq_getElem spots (0, 0) hlast
  · rfl

theorem removeSpot_subset (spots : List (ℕ × ℕ)) (idx : ℕ) (hidx : idx < spots.length) :
    ∀ p ∈ removeSpot spots idx, p ∈ spots := by
  intro p hp
  rw [List.mem_iff_getElem] at hp
  obtain ⟨k, hk, hpk⟩ := hp
  have hk' := hk
  rw [length_removeSpot] at hk'
  have hpk2 : (removeSpot spots idx).get ⟨k, hk⟩ = p := hpk
  rw [removeSpot_getElem spots idx k hidx hk (by omega) (by omega)] at hpk2
  split at hpk2
  · exact hpk2 ▸ List.get_mem _ _ _
  · exact hpk2 ▸ List.get_mem _ _ _

theorem removeSpot_nodup (spots : List (ℕ × ℕ)) (idx : ℕ) (hidx : idx < spots.length)
    (hnd : spots.Nodup) : (removeSpot spots idx).Nodup := by
  rw [List.nodup_iff_injective_get]
  intro ⟨k1, hk1⟩ ⟨k2, hk2⟩ he
  have hl1 := hk1; have hl2 := hk2
  rw [length_removeSpot] at hl1 hl2
  rw [removeSpot_getElem spots idx k1 hidx hk1 (by omega) (by omega),
    removeSpot_getElem spots idx k2 hidx hk2 (by omega) (by omega)] at he
  have inj : ∀ i j (hi : i < spots.length) (hj : j < spots.length),
      spots.get ⟨i, hi⟩ = spots.get ⟨j, hj⟩ → i = j := by
    intro i j hi hj hij
    exact (List.Nodup.getElem_inj_iff hnd).mp hij
  split at he <;> split at he <;> rename_i h1 h2
  · exact Fin.mk_eq_mk.mpr (by omega)
  · exact absurd (inj _ _ _ _ he) (by omega)
  · exact absurd (inj _ _ _ _ he) (by omega)
  · exact Fin.mk_eq_mk.mpr (inj _ _ _ _ he)

theorem removeSpot_spot_not_mem (spots : List (ℕ × ℕ)) (idx : ℕ) (hidx : idx < spots.length)
    (hnd : spots.Nodup) : spots.get ⟨idx, hidx⟩ ∉ removeSpot spots idx := by
  intro hmem
  rw [List.mem_iff_getElem] at hmem
  obtain ⟨k, hk, hpk⟩ := hmem
  have hk' := hk
  rw [length_removeSpot] at hk'
  have hpk2 : (removeSpot spots idx).get ⟨k, hk⟩ = spots.get ⟨idx, hidx⟩ := hpk
  rw [removeSpot_getElem spots idx k hidx hk (by omega) (by omega)] at hpk2
  have inj : ∀ i j (hi : i < spots.length) (hj : j < spots.length),
      spots.get ⟨i, hi⟩ = spots.get ⟨j, hj⟩ → i = j := by
    intro i j hi hj hij
    exact (List.Nodup.getElem_inj_iff hnd).mp hij
  split at hpk2
  · have := inj _ _ (by omega) hidx hpk2
    omega
  · have := inj _ _ (by omega) hidx hpk2
    omega

/-- Updating one in-range cell moves one unit of count from the old value to the
new value (stated additively to stay in `ℕ`). -/
theorem countVal_setCell_add (n : ℕ) (g : GridF) (x y v d : ℕ) (hx : x < n) (hy : y < n) :
    countVal n (setCell g x y v) d + (if g x y = d then 1 else 0) =
      countVal n g d + (if v = d then 1 else 0) := by
  unfold countVal
  have hmem : ((x, y) : ℕ × ℕ) ∈ Finset.range n ×ˢ Finset.range n := by
    simp [Finset.mem_product, hx, hy]
  rw [← Finset.add_sum_erase _ (fun p => if setCell g x y v p.1 p.2 = d then 1 else 0) hmem,
    ← Finset.add_sum_erase _ (fun p => if g p.1 p.2 = d then 1 else 0) hmem]
  have hrest : ∀ p ∈ (Finset.range n ×ˢ Finset.range n).erase (x, y),
      (if setCell g x y v p.1 p.2 = d then (1 : ℕ) else 0) =
        if g p.1 p.2 = d then 1 else 0 := by
    intro p hp
    have hne : p ≠ (x, y) := Finset.ne_of_mem_erase hp
    rw [setCell_other _ _ _ _ _ _ (fun hc => hne (Prod.ext hc.1 hc.2))]
  rw [Finset.sum_congr rfl hrest]
  simp only [setCell_same]
  omega

/-- The parallel swap of two in-range cells leaves every value count unchanged. -/
theorem countVal_swapCells (n : ℕ) (g : GridF) (p q : ℕ × ℕ) (d : ℕ)
    (hp1 : p.1 < n) (hp2 : p.2 < n) (hq1 : q.1 < n) (hq2 : q.2 < n) :
    countVal n (swapCells g p q) d = countVal n g d := by
  have h1 := countVal_setCell_add n g p.1 p.2 (g q.1 q.2) d hp1 hp2
  have h2 := countVal_setCell_add n (setCell g p.1 p.2 (g q.1 q.2)) q.1 q.2
    (g p.1 p.2) d hq1 hq2
  have hkey : setCell g p.1 p.2 (g q.1 q.2) q.1 q.2 = g q.1 q.2 := by
    unfold setCell
    split <;> rfl
  rw [hkey] at h2
  unfold swapCells
  omega

/-- The complete behaviour of one digit's placement loop: spots stay distinct
in-range blanks, exactly `count` spots are consumed, the placed digit gains
exactly `count` occurrences, every other nonzero value keeps its count, and
cells outside the spot list are untouched. -/
theorem placeDigit_spec (n d : ℕ) (hd : 1 ≤ d) :
    ∀ (c : ℕ) (g : GridF) (spots : List (ℕ × ℕ)) (rng : List ℕ),
      spots.Nodup →
      (∀ p ∈ spots, p.1 < n ∧ p.2 < n ∧ g p.1 p.2 = 0) →
      c ≤ spots.length →
      (placeDigit d c (g, spots, rng)).2.1.Nodup ∧
        (∀ p ∈ (placeDigit d c (g, spots, rng)).2.1, p ∈ spots) ∧
        (∀ p ∈ (placeDigit d c (g, spots, rng)).2.1,
          p.1 < n ∧ p.2 < n ∧ (placeDigit d c (g, spots, rng)).1 p.1 p.2 = 0) ∧
        (placeDigit d c (g, spots, rng)).2.1.length = spots.length - c ∧
        countVal n (placeDigit d c (g, spots, rng)).1 d = countVal n g d + c ∧
        (∀ e, e ≠ d → e ≠ 0 →
          countVal n (placeDigit d c (g, spots, rng)).1 e = countVal n g e) ∧
        (∀ x y, ((x, y) : ℕ × ℕ) ∉ spots →
          (placeDigit d c (g, spots, rng)).1 x y = g x y) := by
  intro c
  induction c with
  | zero =>
    intro g spots rng hnd hblank _
    exact ⟨hnd, fun p hp => hp, hblank, by simp [placeDigit], by simp [placeDigit],
      fun e _ _ => rfl, fun x y _ => rfl⟩
  | succ c ih =>
    intro g spots rng hnd hblank hc
    have hlen : 0 < spots.length := by omega
    obtain ⟨idx, hidxeq, hidx⟩ :
        ∃ idx, rng.headD 0 % spots.length = idx ∧ idx < spots.length :=
      ⟨_, rfl, Nat.mod_lt _ hlen⟩
    have hstep : placeDigit d (c + 1) (g, spots, rng) =
        placeDigit d c
          (setCell g (spots.get ⟨idx, hidx⟩).1 (spots.get ⟨idx, hidx⟩).2 d,
           removeSpot spots idx, rng.tail) := by
      rw [placeDigit, hidxeq, List.getD_eq_getElem _ _ hidx]
      rfl
    set spot := spots.get ⟨idx, hidx⟩ with hspotdef
    have hspot_mem : spot ∈ spots := List.get_mem _ _ _
    obtain ⟨hs1, hs2, hs0⟩ := hblank spot hspot_mem
    have hnd' := removeSpot_nodup spots idx hidx hnd
    have hsub := removeSpot_subset spots idx hidx
    have hspotnot := removeSpot_spot_not_mem spots idx hidx hnd
    have hblank' : ∀ p ∈ removeSpot spots idx,
        p.1 < n ∧ p.2 < n ∧ setCell g spot.1 spot.2 d p.1 p.2 = 0 := by
      intro p hp
      obtain ⟨h1, h2, h0⟩ := hblank p (hsub p hp)
      refine ⟨h1, h2, ?_⟩
      rw [setCell_other _ _ _ _ _ _ ?_]
      · exact h0
      · rintro ⟨e1, e2⟩
        apply hspotnot
        have : p = spot := Prod.ext e1 e2
        rwa [this] at hp
    have hlen' : (removeSpot spots idx).length = spots.length - 1 := length_removeSpot _ _
    obtain ⟨ihnd, ihsub, ihblank, ihlen, ihcnt, ihother, ihout⟩ :=
      ih (setCell g spot.1 spot.2 d) (removeSpot spots idx) rng.tail hnd' hblank'
        (by omega)
    rw [hstep]
    refine ⟨ihnd, ?_, ihblank, ?_, ?_, ?_, ?_⟩
    · intro p hp
      exact hsub p (ihsub p hp)
    · omega
    · have hadd := countVal_setCell_add n g spot.1 spot.2 d d hs1 hs2
      rw [hs0, if_neg (by omega : ¬(0 : ℕ) = d), if_pos rfl] at hadd
      omega
    · intro e he hne0
      rw [ihother e he hne0]
      have hadd := countVal_setCell_add n g spot.1 spot.2 d e hs1 hs2
      rw [hs0, if_neg (by omega : ¬(0 : ℕ) = e),
        if_neg (fun h => he h.symm)] at hadd
      omega
    · intro x y hxy
      rw [ihout x y (fun hmem => hxy (hsub _ hmem))]
      rw [setCell_other _ _ _ _ _ _ ?_]
      rintro ⟨e1, e2⟩
      apply hxy
      rw [e1, e2, Prod.mk.eta]
      exact hspot_mem

/-- The digit-placement fold of `randomInitialization` over the remaining digits:
each remaining digit reaches its full remaining count, every other nonzero value
keeps its count, and cells outside the spot list are untouched. -/
theorem initFold_spec (orig : GridF) (n : ℕ) :
    ∀ (rem : List ℕ) (st : GridF × List (ℕ × ℕ) × List ℕ),
      rem.Nodup →
      (∀ d ∈ rem, 1 ≤ d ∧ d ≤ n) →
      st.2.1.Nodup →
      (∀ p ∈ st.2.1, p.1 < n ∧ p.2 < n ∧ st.1 p.1 p.2 = 0) →
      st.2.1.length = (rem.map fun d => n - countVal n orig d).sum →
      (∀ d ∈ rem, countVal n
          (rem.foldl (fun st d => placeDigit d (n - countVal n orig d) st) st).1 d =
        countVal n st.1 d + (n - countVal n orig d)) ∧
      (∀ e, e ≠ 0 → e ∉ rem → countVal n
          (rem.foldl (fun st d => placeDigit d (n - countVal n orig d) st) st).1 e =
        countVal n st.1 e) ∧
      (∀ x y, ((x, y) : ℕ × ℕ) ∉ st.2.1 →
        (rem.foldl (fun st d => placeDigit d (n - countVal n orig d) st) st).1 x y =
          st.1 x y) := by
  intro rem
  induction rem with
  | nil =>
    intro st _ _ _ _ _
    exact ⟨fun d hd => absurd hd (List.not_mem_nil d), fun e _ _ => rfl, fun x y _ => rfl⟩
  | cons d rem ih =>
    intro st hnd hdig hsnd hblank hslen
    obtain ⟨g, spots, rng⟩ := st
    simp only [List.map_cons, List.sum_cons] at hslen
    simp only at hsnd hblank
    obtain ⟨hd1, hdn⟩ := hdig d (List.mem_cons_self d rem)
    obtain ⟨pnd, psub, pblank, plen, pcnt, pother, pout⟩ :=
      placeDigit_spec n d hd1 (n - countVal n orig d) g spots rng hsnd hblank (by omega)
    have hfold : (d :: rem).foldl (fun st d => placeDigit d (n - countVal n orig d) st)
        (g, spots, rng) =
        rem.foldl (fun st d => placeDigit d (n - countVal n orig d) st)
          (placeDigit d (n - countVal n orig d) (g, spots, rng)) := rfl
    obtain ⟨icnt, iother, iout⟩ :=
      ih (placeDigit d (n - countVal n orig d) (g, spots, rng)) (hnd.of_cons)
        (fun e he => hdig e (List.mem_cons_of_mem d he)) pnd pblank (by omega)
    have hdninrem : d ∉ rem := (List.nodup_cons.mp hnd).1
    refine ⟨?_, ?_, ?_⟩
    · intro e he
      rcases List.mem_cons.mp he with rfl | hmem
      · rw [hfold, iother e (by omega) hdninrem, pcnt]
      · have hne : e ≠ d := fun h => hdninrem (h ▸ hmem)
        have he1 := (hdig e he).1
        rw [hfold, icnt e hmem, pother e hne (by omega)]
    · intro e he0 henot
      have hned : e ≠ d := fun h => henot (h ▸ List.mem_cons_self d rem)
      have henotrem : e ∉ rem := fun h => henot (List.mem_cons_of_mem d h)
      rw [hfold, iother e he0 henotrem, pother e hned he0]
    · intro x y hxy
      rw [hfold, iout x y (fun hmem => hxy (psub _ hmem)), pout x y hxy]

theorem mem_emptySpotsList (orig : GridF) (n : ℕ) (p : ℕ × ℕ) :
    p ∈ emptySpotsList orig n ↔ p.1 < n ∧ p.2 < n ∧ orig p.1 p.2 = 0 := by
  unfold emptySpotsList
  simp only [List.mem_flatMap, List.mem_map, List.mem_filter, List.mem_range,
    decide_eq_true_eq]
  constructor
  · rintro ⟨i, hi, j, ⟨hj, hz⟩, rfl⟩
    exact ⟨hi, hj, hz⟩
  · rintro ⟨h1, h2, h3⟩
    exact ⟨p.1, h1, p.2, ⟨h2, h3⟩, Prod.mk.eta⟩

theorem nodup_emptySpotsList (orig : GridF) (n : ℕ) : (emptySpotsList orig n).Nodup := by
  unfold emptySpotsList
  rw [List.nodup_flatMap]
  constructor
  · intro i _
    exact (((List.nodup_range n).filter _).map (fun a b hab => by
      simpa using congrArg Prod.snd hab))
  · apply List.Pairwise.imp ?_ (List.nodup_range n)
    intro a b hne x hxa hxb
    simp only [List.mem_map, List.mem_filter] at hxa hxb
    obtain ⟨ja, _, hja⟩ := hxa
    obtain ⟨jb, _, hjb⟩ := hxb
    exact hne ((congrArg Prod.fst hja).trans (congrArg Prod.fst hjb).symm)

theorem list_range_map_sum (f : ℕ → ℕ) (n : ℕ) :
    ((List.range n).map f).sum = ∑ i in Finset.range n, f i := by
  induction n with
  | zero => simp
  | succ m ih =>
    rw [List.range_succ, List.map_append, List.sum_append, Finset.sum_range_succ, ih]
    simp

theorem filter_range_length (p : ℕ → Bool) (n : ℕ) :
    ((List.range n).filter p).length = ∑ i in Finset.range n, if p i then 1 else 0 := by
  induction n with
  | zero => simp
  | succ m ih =>
    rw [List.range_succ, List.filter_append, List.length_append, ih,
      Finset.sum_range_succ]
    cases hpm : p m <;> simp [List.filter, hpm]

/-- The spot list collects exactly the blank cells: its length is the number of
cells holding `0`. -/
theorem length_emptySpotsList (orig : GridF) (n : ℕ) :
    (emptySpotsList orig n).length = countVal n orig 0 := by
  unfold emptySpotsList countVal
  rw [List.length_flatMap, Finset.sum_product,
    list_range_map_sum (List.length ∘ fun i =>
      ((List.range n).filter fun j => orig i j = 0).map fun j => (i, j))]
  apply Finset.sum_congr rfl
  intro i _
  simp only [Function.comp_apply, List.length_map]
  rw [filter_range_length]
  apply Finset.sum_congr rfl
  intro j _
  simp

/-- Every cell holds exactly one value `≤ n`, so the value counts over `0..n`
partition the `n*n` cells. -/
theorem countVal_total (orig : GridF) (n : ℕ)
    (hvals : ∀ i < n, ∀ j < n, orig i j ≤ n) :
    ∑ v in Finset.range (n + 1), countVal n orig v = n * n := by
  unfold countVal
  rw [Finset.sum_comm]
  have hone : ∀ p ∈ Finset.range n ×ˢ Finset.range n,
      (∑ v in Finset.range (n + 1), if orig p.1 p.2 = v then (1 : ℕ) else 0) = 1 := by
    intro p hp
    rw [Finset.sum_ite_eq, if_pos]
    simp only [Finset.mem_product, Finset.mem_range] at hp
    exact Finset.mem_range.mpr (by have := hvals p.1 hp.1 p.2 hp.2; omega)
  rw [Finset.sum_congr rfl hone]
  simp [Finset.card_product]

theorem range'_map_sum (f : ℕ → ℕ) (n : ℕ) :
    ((List.range' 1 n).map f).sum = ∑ d in Finset.range n, f (d + 1) := by
  induction n with
  | zero => simp
  | succ m ih =>
    rw [List.range'_concat, List.map_append, List.sum_append, Finset.sum_range_succ, ih]
    simp [Nat.add_comm]

/-- The total remaining count over any permutation of the digits `1..n` equals
the number of blank cells. -/
theorem remaining_sum (orig : GridF) (n : ℕ)
    (hvals : ∀ i < n, ∀ j < n, orig i j ≤ n)
    (hcounts : ∀ d, 1 ≤ d → d ≤ n → countVal n orig d ≤ n)
    (order : List ℕ) (hord : order.Perm (List.range' 1 n)) :
    (order.map fun d => n - countVal n orig d).sum = countVal n orig 0 := by
  rw [(hord.map _).sum_eq, range'_map_sum]
  rw [Finset.sum_tsub_distrib _ (fun d hd => hcounts (d + 1) (by omega)
    (by have := Finset.mem_range.mp hd; omega))]
  have htot := countVal_total orig n hvals
  rw [Finset.sum_range_succ'] at htot
  simp only [Finset.sum_const, Finset.card_range, smul_eq_mul, Nat.mul_comm]
  omega

/-- `randomInitialization` preserves every clue value and produces a grid in
which each digit `1..n` occurs exactly `n` times, for every digit-processing
order (Go map iteration) and every stream of random draws. -/
theorem randomInitialization_props (originalPuzzle : GridF) (puzzleDim : ℕ)
    (order rng : List ℕ)
    (hvals : ∀ i < puzzleDim, ∀ j < puzzleDim, originalPuzzle i j ≤ puzzleDim)
    (hcounts : ∀ d, 1 ≤ d → d ≤ puzzleDim →
      countVal puzzleDim originalPuzzle d ≤ puzzleDim)
    (hord : order.Perm (List.range' 1 puzzleDim)) :
    (∀ i j, originalPuzzle i j > 0 →
      randomInitialization originalPuzzle puzzleDim order rng i j =
        originalPuzzle i j) ∧
    (∀ d, 1 ≤ d → d ≤ puzzleDim →
      countVal puzzleDim (randomInitialization originalPuzzle puzzleDim order rng) d =
        puzzleDim) := by
  have hordnd : order.Nodup := hord.nodup_iff.mpr (List.nodup_range' 1 puzzleDim)
  have hdig : ∀ d ∈ order, 1 ≤ d ∧ d ≤ puzzleDim := by
    intro d hd
    have hmem := List.mem_range'_1.mp (hord.mem_iff.mp hd)
    omega
  obtain ⟨icnt, iother, iout⟩ := initFold_spec originalPuzzle puzzleDim order
    (originalPuzzle, emptySpotsList originalPuzzle puzzleDim, rng) hordnd hdig
    (nodup_emptySpotsList _ _)
    (fun p hp => (mem_emptySpotsList originalPuzzle puzzleDim p).mp hp)
    (by rw [length_emptySpotsList,
      remaining_sum originalPuzzle puzzleDim hvals hcounts order hord])
  constructor
  · intro i j hij
    unfold randomInitialization
    exact iout i j (fun hmem => by
      have h : i < puzzleDim ∧ j < puzzleDim ∧ originalPuzzle i j = 0 :=
        (mem_emptySpotsList _ _ _).mp hmem
      omega)
  · intro d h1 hn
    have hmemord : d ∈ order := hord.mem_iff.mpr (List.mem_range'_1.mpr ⟨h1, by omega⟩)
    unfold randomInitialization
    rw [icnt d hmemord]
    show countVal puzzleDim originalPuzzle d +
      (puzzleDim - countVal puzzleDim originalPuzzle d) = puzzleDim
    have := hcounts d h1 hn
    omega

/-- C4: `randomInitialization` preserves every clue value and produces a grid in
which each digit `1..n` occurs exactly `n` times, for every digit-processing
order (Go map iteration) and every stream of random draws. -/
theorem randomInitialization_spec (originalPuzzle : GridF) (puzzleDim : ℕ)
    (order rng : List ℕ)
    (hvals : ∀ i < puzzleDim, ∀ j < puzzleDim, originalPuzzle i j ≤ puzzleDim)
    (hcounts : ∀ d, 1 ≤ d → d ≤ puzzleDim →
      countVal puzzleDim originalPuzzle d ≤ puzzleDim)
    (hord : order.Perm (List.range' 1 puzzleDim)) :
    (∀ i j, originalPuzzle i j > 0 →
      randomInitialization originalPuzzle puzzleDim order rng i j =
        originalPuzzle i j) ∧
    (∀ d, 1 ≤ d → d ≤ puzzleDim →
      countVal puzzleDim (randomInitialization originalPuzzle puzzleDim order rng) d =
        puzzleDim) :=
  randomInitialization_props originalPuzzle puzzleDim order rng hvals hcounts hord

theorem randomInitialization_spec_witness :
    (∀ i < 2, ∀ j < 2, clueGrid2 i j ≤ 2) ∧
      (∀ d, 1 ≤ d → d ≤ 2 → countVal 2 clueGrid2 d ≤ 2) ∧
      List.Perm [1, 2] (List.range' 1 2) ∧
      (∀ i j, clueGrid2 i j > 0 →
        randomInitialization clueGrid2 2 [1, 2] [2, 0, 0] i j = clueGrid2 i j) ∧
      (∀ d, 1 ≤ d → d ≤ 2 →
        countVal 2 (randomInitialization clueGrid2 2 [1, 2] [2, 0, 0]) d = 2) := by
  have h1 : ∀ i < 2, ∀ j < 2, clueGrid2 i j ≤ 2 := by decide
  have h2 : ∀ d, 1 ≤ d → d ≤ 2 → countVal 2 clueGrid2 d ≤ 2 := by
    intro d hd1 hd2
    interval_cases d <;> decide
  have h3 : List.Perm [1, 2] (List.range' 1 2) := List.Perm.refl _
  obtain ⟨c1, c2⟩ := randomInitialization_spec clueGrid2 2 [1, 2] [2, 0, 0] h1 h2 h3
  exact ⟨h1, h2, h3, c1, c2⟩

/-- The random data one iteration of `annealerInternalIterator` consumes: the
rejection-sampling streams of its `getNeighbour` call (one pair per swap), the
uniform draw `u` of `rand.Float64()`, and the recorded outcome `flip` of the
comparison `acceptanceProbability(...) > u` (the theorems constrain `flip` to
equal that comparison, keeping the embedding computable while `exp` is real). -/
structure IterDraw where
  swaps : List (List (ℕ × ℕ) × List (ℕ × ℕ))
  u : ℝ
  flip : Bool

/-- `acceptanceProbability(oldCost, newCost, temperature) = exp((oldCost − newCost)/temperature)`. -/
noncomputable def acceptanceProbability (oldCost newCost temperature : ℝ) : ℝ :=
  Real.exp ((oldCost - newCost) / temperature)

/-- The iteration loop of `annealerInternalIterator`: per iteration, propose a
neighbour, and: zero cost → return it immediately with cost `0`; strictly smaller
cost → adopt it; otherwise adopt it exactly when the recorded Metropolis draw
`flip` fired.  Exhausting the budget returns the last adopted pair. -/
def annealerIterAux (originalPuzzle : GridF) (puzzleDim blockXDim blockYDim swapCount : ℕ) :
    ℕ → GridF → ℤ → List IterDraw → Option (GridF × ℤ)
  | 0, cur, curCost, _ => some (cur, curCost)
  | _ + 1, _, _, [] => none
  | iters + 1, cur, curCost, d :: rest =>
    match getNeighbour cur swapCount originalPuzzle puzzleDim d.swaps with
    | none => none
    | some nb =>
      if costFunction nb blockXDim blockYDim = 0 then some (nb, 0)
      else if costFunction nb blockXDim blockYDim < curCost then
        annealerIterAux originalPuzzle puzzleDim blockXDim blockYDim swapCount
          iters nb (costFunction nb blockXDim blockYDim) rest
      else if d.flip then
        annealerIterAux originalPuzzle puzzleDim blockXDim blockYDim swapCount
          iters nb (costFunction nb blockXDim blockYDim) rest
      else
        annealerIterAux originalPuzzle puzzleDim blockXDim blockYDim swapCount
          iters cur curCost rest

/-- `annealerInternalIterator`: start from a copy of the candidate and its
recomputed cost, then run the iteration loop.  The temperature only enters
through the Metropolis comparison recorded in each draw's `flip`. -/
def annealerInternalIterator (originalPuzzle candidateSolution : GridF)
    (puzzleDim blockXDim blockYDim : ℕ) (temperature : ℚ)
    (internalIterations swapCount : ℕ) (draws : List IterDraw) : Option (GridF × ℤ) :=
  annealerIterAux originalPuzzle puzzleDim blockXDim blockYDim swapCount
    internalIterations candidateSolution
    (costFunction candidateSolution blockXDim blockYDim) draws

/-- C3: the complete acceptance rule of one iteration of the replica local search,
for a faithfully recorded Metropolis draw (`flip ↔ exp((cur − cand)/T) > u`):
zero-cost neighbours are returned immediately with cost 0, strictly improving
neighbours are adopted unconditionally, and otherwise the neighbour is adopted
exactly when `exp((currentCost − candidateCost)/temperature)` exceeds the uniform
draw; no other rule applies. -/
theorem annealerIter_acceptance_rule (originalPuzzle : GridF)
    (puzzleDim blockXDim blockYDim swapCount : ℕ) (temperature : ℚ) (iters : ℕ)
    (cur : GridF) (curCost : ℤ) (d : IterDraw) (rest : List IterDraw) (nb : GridF)
    (hnb : getNeighbour cur swapCount originalPuzzle puzzleDim d.swaps = some nb)
    (hflip : d.flip = true ↔
      acceptanceProbability (curCost : ℝ) ((costFunction nb blockXDim blockYDim : ℤ) : ℝ)
        (temperature : ℝ) > d.u) :
    (costFunction nb blockXDim blockYDim = 0 →
      annealerIterAux originalPuzzle puzzleDim blockXDim blockYDim swapCount
        (iters + 1) cur curCost (d :: rest) = some (nb, 0)) ∧
    (costFunction nb blockXDim blockYDim ≠ 0 →
      costFunction nb blockXDim blockYDim < curCost →
      annealerIterAux originalPuzzle puzzleDim blockXDim blockYDim swapCount
          (iters + 1) cur curCost (d :: rest) =
        annealerIterAux originalPuzzle puzzleDim blockXDim blockYDim swapCount
          iters nb (costFunction nb blockXDim blockYDim) rest) ∧
    (costFunction nb blockXDim blockYDim ≠ 0 →
      ¬costFunction nb blockXDim blockYDim < curCost →
      (acceptanceProbability (curCost : ℝ) ((costFunction nb blockXDim blockYDim : ℤ) : ℝ)
          (temperature : ℝ) > d.u →
        annealerIterAux originalPuzzle puzzleDim blockXDim blockYDim swapCount
            (iters + 1) cur curCost (d :: rest) =
          annealerIterAux originalPuzzle puzzleDim blockXDim blockYDim swapCount
            iters nb (costFunction nb blockXDim blockYDim) rest) ∧
      (¬acceptanceProbability (curCost : ℝ) ((costFunction nb blockXDim blockYDim : ℤ) : ℝ)
          (temperature : ℝ) > d.u →
        annealerIterAux originalPuzzle puzzleDim blockXDim blockYDim swapCount
            (iters + 1) cur curCost (d :: rest) =
          annealerIterAux originalPuzzle puzzleDim blockXDim blockYDim swapCount
            iters cur curCost rest)) := by
  refine ⟨?_, ?_, ?_⟩
  · intro h0
    rw [annealerIterAux, hnb]
    simp only [if_pos h0]
  · intro h0 hlt
    rw [annealerIterAux, hnb]
    simp only [if_neg h0, if_pos hlt]
  · intro h0 hge
    constructor
    · intro hap
      rw [annealerIterAux, hnb]
      have hf : d.flip = true := hflip.mpr hap
      simp only [if_neg h0, if_neg hge, hf, if_pos]
    · intro hap
      rw [annealerIterAux, hnb]
      have hf : d.flip = false := by
        cases hfc : d.flip
        · rfl
        · exact absurd (hflip.mp hfc) hap
      simp only [if_neg h0, if_neg hge, hf]
      rw [if_neg (by simp)]

/-- A concrete iteration draw: one self-swap at the free cell `(0,1)`, uniform
draw `0`, Metropolis comparison recorded as fired. -/
def exDraw : IterDraw := ⟨[([(0, 1)], [(0, 1)])], 0, true⟩

/-- The neighbour `getNeighbour` produces from `candGrid2` under `exDraw`. -/
def exNb : GridF := swapCells candGrid2 (0, 1) (0, 1)

theorem annealerIter_acceptance_rule_witness :
    getNeighbour candGrid2 1 clueGrid2 2 exDraw.swaps = some exNb ∧
      (exDraw.flip = true ↔
        acceptanceProbability ((costFunction candGrid2 2 1 : ℤ) : ℝ)
          ((costFunction exNb 2 1 : ℤ) : ℝ) ((1 : ℚ) : ℝ) > exDraw.u) ∧
      ((costFunction exNb 2 1 = 0 →
        annealerIterAux clueGrid2 2 2 1 1 1 candGrid2 (costFunction candGrid2 2 1)
          [exDraw] = some (exNb, 0)) ∧
      (costFunction exNb 2 1 ≠ 0 →
        costFunction exNb 2 1 < costFunction candGrid2 2 1 →
        annealerIterAux clueGrid2 2 2 1 1 1 candGrid2 (costFunction candGrid2 2 1)
            [exDraw] =
          annealerIterAux clueGrid2 2 2 1 1 0 exNb (costFunction exNb 2 1) []) ∧
      (costFunction exNb 2 1 ≠ 0 →
        ¬costFunction exNb 2 1 < costFunction candGrid2 2 1 →
        (acceptanceProbability ((costFunction candGrid2 2 1 : ℤ) : ℝ)
            ((costFunction exNb 2 1 : ℤ) : ℝ) ((1 : ℚ) : ℝ) > exDraw.u →
          annealerIterAux clueGrid2 2 2 1 1 1 candGrid2 (costFunction candGrid2 2 1)
              [exDraw] =
            annealerIterAux clueGrid2 2 2 1 1 0 exNb (costFunction exNb 2 1) []) ∧
        (¬acceptanceProbability ((costFunction candGrid2 2 1 : ℤ) : ℝ)
            ((costFunction exNb 2 1 : ℤ) : ℝ) ((1 : ℚ) : ℝ) > exDraw.u →
          annealerIterAux clueGrid2 2 2 1 1 1 candGrid2 (costFunction candGrid2 2 1)
              [exDraw] =
            annealerIterAux clueGrid2 2 2 1 1 0 candGrid2 (costFunction candGrid2 2 1)
              []))) :=
  ⟨rfl, iff_of_true rfl (Real.exp_pos _),
    annealerIter_acceptance_rule clueGrid2 2 2 1 1 1 0 candGrid2
      (costFunction candGrid2 2 1) exDraw [] exNb rfl
      (iff_of_true rfl (Real.exp_pos _))⟩

/-- One exchange pass only permutes the replicas. -/
theorem exchangePass_permutes (reps : List (GridF × ℤ)) :
    List.Perm (exchangePass reps) reps := by
  induction reps with
  | nil => rw [exchangePass]
  | cons x xs ih =>
    rw [exchangePass]
    cases hxs : exchangePass xs with
    | nil =>
      have hnil : xs = [] := List.nil_perm.mp (hxs ▸ ih)
      subst hnil
      exact List.Perm.refl _
    | cons y ys =>
      have ih' : List.Perm (y :: ys) xs := hxs ▸ ih
      show (if y.2 < x.2 then y :: x :: ys else x :: y :: ys).Perm (x :: xs)
      by_cases hlt : y.2 < x.2
      · rw [if_pos hlt]
        exact (List.Perm.swap x y ys).trans (ih'.cons x)
      · rw [if_neg hlt]
        exact ih'.cons x

/-- C5: one exchange pass only permutes the replicas: the output list of
(grid, cost) pairs holds exactly the same multiset of pairs as the input, for
any number of replicas. -/
theorem exchangePass_perm (reps : List (GridF × ℤ)) :
    List.Perm (exchangePass reps) reps :=
  exchangePass_permutes reps

/-- `finalTemperature := 0.00001`, the fixed temperature floor of `anneal`
(written `mkRat 1 100000 = 1/100000`). -/
def finalTemperature : ℚ := mkRat 1 100000

/-- The per-outer-step fan-out of `anneal`: run `annealerInternalIterator` for
each replica in rung order, rung `i` at effective temperature
`baseTemperature * 2^i`, collecting the returned (solution, cost) pairs.  The Go
loop launches each goroutine and immediately blocks on its channels, so the
semantics is this sequential pass. -/
def runReplicas (originalPuzzle : GridF) (puzzleDim blockXDim blockYDim : ℕ)
    (baseTemperature : ℚ) (internalIterations swapCount : ℕ)
    (ds : ℕ → List IterDraw) :
    List (GridF × ℤ) → ℕ → Option (List (GridF × ℤ))
  | [], _ => some []
  | r :: rest, i =>
    match annealerInternalIterator originalPuzzle r.1 puzzleDim blockXDim blockYDim
        (baseTemperature * 2 ^ i) internalIterations swapCount (ds i) with
    | none => none
    | some r' =>
      match runReplicas originalPuzzle puzzleDim blockXDim blockYDim baseTemperature
          internalIterations swapCount ds rest (i + 1) with
      | none => none
      | some rest' => some (r' :: rest')

/-- The outer loop of `anneal`: while the base temperature is above the floor,
run every replica, perform the greedy exchange pass, return solved if rung 0
reached cost `0`, otherwise cool by the cooling rate and continue; on leaving
the loop return rung 0's grid with `solved = false`.  `fuel` bounds the number
of outer steps the model may take (`none` = the bound, or some replica's random
stream, was exhausted); `step` indexes the outer step's draws. -/
def annealLoop (originalPuzzle : GridF) (puzzleDim blockXDim blockYDim : ℕ)
    (coolingRate : ℚ) (internalIterations swapCount : ℕ)
    (draws : ℕ → ℕ → List IterDraw) :
    ℕ → ℕ → ℚ → List (GridF × ℤ) → Option (GridF × Bool)
  | _, 0, baseTemperature, reps =>
    if baseTemperature > finalTemperature then none
    else some ((reps.headD default).1, false)
  | step, fuel + 1, baseTemperature, reps =>
    if baseTemperature > finalTemperature then
      match runReplicas originalPuzzle puzzleDim blockXDim blockYDim baseTemperature
          internalIterations swapCount (draws step) reps 0 with
      | none => none
      | some reps' =>
        if ((exchangePass reps').headD default).2 = 0 then
          some (((exchangePass reps').headD default).1, true)
        else
          annealLoop originalPuzzle puzzleDim blockXDim blockYDim coolingRate
            internalIterations swapCount draws (step + 1) fuel
            (baseTemperature * coolingRate) (exchangePass reps')
    else some ((reps.headD default).1, false)

/-- `anneal`: initialize once with `randomInitialization`, give every one of the
`concurrentAnnealerCount` replicas a copy of the initial solution and its cost,
and run the outer loop from the configured base temperature. -/
def anneal (originalPuzzle : GridF) (blockXDim blockYDim : ℕ)
    (baseTemperature coolingRate : ℚ)
    (internalIterations swapCount concurrentAnnealerCount : ℕ)
    (order rng : List ℕ) (draws : ℕ → ℕ → List IterDraw) (fuel : ℕ) :
    Option (GridF × Bool) :=
  annealLoop originalPuzzle (blockXDim * blockYDim) blockXDim blockYDim coolingRate
    internalIterations swapCount draws 0 fuel baseTemperature
    (List.replicate concurrentAnnealerCount
      (randomInitialization originalPuzzle (blockXDim * blockYDim) order rng,
       costFunction
         (randomInitialization originalPuzzle (blockXDim * blockYDim) order rng)
         blockXDim blockYDim))

theorem findFreeCell_full4 : ∀ s, findFreeCell fullGrid4 4 s = none := by
  intro s
  induction s with
  | nil => rfl
  | cons p rest ih =>
    rw [findFreeCell, if_pos, ih]
    have h1 : p.1 % 4 < 4 := Nat.mod_lt _ (by omega)
    have h2 : p.2 % 4 < 4 := Nat.mod_lt _ (by omega)
    have hall : ∀ a < 4, ∀ b < 4, fullGrid4 a b > 0 := by decide
    exact hall _ h1 _ h2

theorem getNeighbour_full4 (cur : GridF) (k : ℕ) (hk : 1 ≤ k)
    (rs : List (List (ℕ × ℕ) × List (ℕ × ℕ))) :
    getNeighbour cur k fullGrid4 4 rs = none := by
  match k, hk with
  | k + 1, _ =>
    match rs with
    | [] => rfl
    | s :: rest =>
      rw [getNeighbour, findFreeCell_full4]

theorem annealerIterAux_full4 (iters : ℕ) (hit : 1 ≤ iters) (swapCount : ℕ)
    (hk : 1 ≤ swapCount) (cur : GridF) (curCost : ℤ) (draws : List IterDraw) :
    annealerIterAux fullGrid4 4 2 2 swapCount iters cur curCost draws = none := by
  match iters, hit with
  | iters + 1, _ =>
    match draws with
    | [] => rfl
    | d :: rest =>
      rw [annealerIterAux, getNeighbour_full4 cur swapCount hk d.swaps]

theorem runReplicas_full4 (T : ℚ) (iters swapCount : ℕ) (hit : 1 ≤ iters)
    (hk : 1 ≤ swapCount) (ds : ℕ → List IterDraw) (r : GridF × ℤ)
    (rest : List (GridF × ℤ)) (i : ℕ) :
    runReplicas fullGrid4 4 2 2 T iters swapCount ds (r :: rest) i = none := by
  rw [runReplicas]
  unfold annealerInternalIterator
  rw [annealerIterAux_full4 iters hit swapCount hk]

/-- C6 (code divergence): on the fully specified, constraint-valid 4×4 grid the
engine never reaches its first convergence check: `getNeighbour`'s rejection
sampling can never produce a non-clue cell, so the model returns `none` (the Go
program loops forever) for every fuel bound, every random stream and every
initializer order — instead of reporting solved with cost 0 as specified.  The
grid does satisfy the claim's premise: its cost is 0. -/
theorem anneal_full4_diverges :
    costFunction fullGrid4 2 2 = 0 ∧
      ∀ (fuel : ℕ) (order rng : List ℕ) (draws : ℕ → ℕ → List IterDraw),
        anneal fullGrid4 2 2 1 (9 / 10) 1 1 1 order rng draws fuel = none := by
  refine ⟨by decide, ?_⟩
  intro fuel order rng draws
  unfold anneal
  match fuel with
  | 0 =>
    rw [annealLoop, if_pos (by norm_num [finalTemperature])]
  | fuel + 1 =>
    rw [annealLoop, if_pos (by norm_num [finalTemperature]),
      List.replicate_succ, List.replicate_zero,
      runReplicas_full4 1 1 1 (le_refl 1) (le_refl 1)]

/-- A constant draw function whose single iteration draw self-swaps the free
cell `(0, 1)`. -/
def drawsSolve : ℕ → ℕ → List IterDraw := fun _ _ => [⟨[([(0, 1)], [(0, 1)])], 0, true⟩]

set_option maxRecDepth 40000 in
/-- C7 (no validation in the code): with cooling rate `2` — outside the valid
range `(0,1)` — the engine is not rejected: `anneal` enters the annealing loop
and returns a normal result.  The code performs no input or configuration
validation whatsoever before the loop. -/
theorem anneal_runs_on_invalid_config :
    ¬((0 : ℚ) < 2 ∧ (2 : ℚ) < 1) ∧
      (anneal clueGrid2 2 1 1 2 1 1 1 [1, 2] [2, 0, 0] drawsSolve 1).isSome = true := by
  constructor
  · rintro ⟨-, h⟩
    norm_num at h
  · decide

/-- A draw supply that keeps every replica's local search total: every outer
step and rung has at least the iteration budget of draws, each draw carries at
least the swap count of stream pairs, and every rejection-sampling stream
eventually hits a free cell (which is almost-sure for the Go generator when the
clue grid has a blank cell). -/
def GoodDraws (originalPuzzle : GridF) (puzzleDim internalIterations swapCount : ℕ)
    (draws : ℕ → ℕ → List IterDraw) : Prop :=
  ∀ step i, internalIterations ≤ (draws step i).length ∧
    ∀ d ∈ draws step i, swapCount ≤ d.swaps.length ∧
      ∀ pr ∈ d.swaps, (findFreeCell originalPuzzle puzzleDim pr.1).isSome = true ∧
        (findFreeCell originalPuzzle puzzleDim pr.2).isSome = true

theorem getNeighbour_total (originalPuzzle : GridF) (puzzleDim : ℕ) :
    ∀ (swapCount : ℕ) (currentPuzzle : GridF)
      (rs : List (List (ℕ × ℕ) × List (ℕ × ℕ))),
      swapCount ≤ rs.length →
      (∀ pr ∈ rs, (findFreeCell originalPuzzle puzzleDim pr.1).isSome = true ∧
        (findFreeCell originalPuzzle puzzleDim pr.2).isSome = true) →
      ∃ nb, getNeighbour currentPuzzle swapCount originalPuzzle puzzleDim rs = some nb := by
  intro swapCount
  induction swapCount with
  | zero => exact fun cur rs _ _ => ⟨cur, rfl⟩
  | succ k ih =>
    intro cur rs hlen hgood
    match rs with
    | [] => simp at hlen
    | s :: rest =>
      obtain ⟨hg1, hg2⟩ := hgood s (List.mem_cons_self s rest)
      obtain ⟨p1, hp1⟩ := Option.isSome_iff_exists.mp hg1
      obtain ⟨p2, hp2⟩ := Option.isSome_iff_exists.mp hg2
      obtain ⟨nb, hnb⟩ := ih (swapCells cur p1 p2) rest (by simpa using hlen)
        (fun pr hpr => hgood pr (List.mem_cons_of_mem s hpr))
      exact ⟨nb, by rw [getNeighbour, hp1, hp2]; exact hnb⟩

theorem annealerIterAux_total (originalPuzzle : GridF)
    (puzzleDim blockXDim blockYDim swapCount : ℕ) :
    ∀ (iters : ℕ) (draws : List IterDraw) (cur : GridF) (curCost : ℤ),
      iters ≤ draws.length →
      (∀ d ∈ draws, swapCount ≤ d.swaps.length ∧
        ∀ pr ∈ d.swaps, (findFreeCell originalPuzzle puzzleDim pr.1).isSome = true ∧
          (findFreeCell originalPuzzle puzzleDim pr.2).isSome = true) →
      ∃ r, annealerIterAux originalPuzzle puzzleDim blockXDim blockYDim swapCount
        iters cur curCost draws = some r := by
  intro iters
  induction iters with
  | zero => exact fun draws cur curCost _ _ => ⟨(cur, curCost), rfl⟩
  | succ it ih =>
    intro draws cur curCost hlen hgood
    match draws with
    | [] => simp at hlen
    | d :: rest =>
      obtain ⟨hk, hstreams⟩ := hgood d (List.mem_cons_self d rest)
      obtain ⟨nb, hnb⟩ := getNeighbour_total originalPuzzle puzzleDim swapCount cur
        d.swaps hk hstreams
      have hrest : ∀ e ∈ rest, swapCount ≤ e.swaps.length ∧
          ∀ pr ∈ e.swaps, (findFreeCell originalPuzzle puzzleDim pr.1).isSome = true ∧
            (findFreeCell originalPuzzle puzzleDim pr.2).isSome = true :=
        fun e he => hgood e (List.mem_cons_of_mem d he)
      have hlrest : it ≤ rest.length := by simpa using hlen
      rw [annealerIterAux, hnb]
      show ∃ r, (if costFunction nb blockXDim blockYDim = 0 then some (nb, 0)
        else if costFunction nb blockXDim blockYDim < curCost then
          annealerIterAux originalPuzzle puzzleDim blockXDim blockYDim swapCount it nb
            (costFunction nb blockXDim blockYDim) rest
        else if d.flip then
          annealerIterAux originalPuzzle puzzleDim blockXDim blockYDim swapCount it nb
            (costFunction nb blockXDim blockYDim) rest
        else annealerIterAux originalPuzzle puzzleDim blockXDim blockYDim swapCount it
          cur curCost rest) = some r
      by_cases h0 : costFunction nb blockXDim blockYDim = 0
      · exact ⟨(nb, 0), by rw [if_pos h0]⟩
      · rw [if_neg h0]
        by_cases hlt : costFunction nb blockXDim blockYDim < curCost
        · obtain ⟨r, hr⟩ := ih rest nb (costFunction nb blockXDim blockYDim) hlrest hrest
          exact ⟨r, by rw [if_pos hlt]; exact hr⟩
        · rw [if_neg hlt]
          by_cases hflip : d.flip
          · obtain ⟨r, hr⟩ := ih rest nb (costFunction nb blockXDim blockYDim)
              hlrest hrest
            exact ⟨r, by rw [if_pos hflip]; exact hr⟩
          · obtain ⟨r, hr⟩ := ih rest cur curCost hlrest hrest
            exact ⟨r, by rw [if_neg hflip]; exact hr⟩

theorem runReplicas_total (originalPuzzle : GridF)
    (puzzleDim blockXDim blockYDim : ℕ) (T : ℚ) (internalIterations swapCount : ℕ)
    (ds : ℕ → List IterDraw)
    (hgood : ∀ i, internalIterations ≤ (ds i).length ∧
      ∀ d ∈ ds i, swapCount ≤ d.swaps.length ∧
        ∀ pr ∈ d.swaps, (findFreeCell originalPuzzle puzzleDim pr.1).isSome = true ∧
          (findFreeCell originalPuzzle puzzleDim pr.2).isSome = true) :
    ∀ (reps : List (GridF × ℤ)) (i : ℕ),
      ∃ reps', runReplicas originalPuzzle puzzleDim blockXDim blockYDim T
        internalIterations swapCount ds reps i = some reps' := by
  intro reps
  induction reps with
  | nil => exact fun i => ⟨[], rfl⟩
  | cons r rest ih =>
    intro i
    obtain ⟨hleni, hgoodi⟩ := hgood i
    obtain ⟨r', hr'⟩ := annealerIterAux_total originalPuzzle puzzleDim blockXDim
      blockYDim swapCount internalIterations (ds i) r.1
      (costFunction r.1 blockXDim blockYDim) hleni hgoodi
    obtain ⟨rest', hrest'⟩ := ih (i + 1)
    refine ⟨r' :: rest', ?_⟩
    rw [runReplicas]
    unfold annealerInternalIterator
    rw [hr', hrest']

theorem finalTemperature_pos : 0 < finalTemperature := by
  rw [finalTemperature, Rat.mkRat_eq_div]
  norm_num

theorem annealLoop_total (originalPuzzle : GridF)
    (puzzleDim blockXDim blockYDim : ℕ) (coolingRate : ℚ)
    (internalIterations swapCount : ℕ) (draws : ℕ → ℕ → List IterDraw)
    (hgood : GoodDraws originalPuzzle puzzleDim internalIterations swapCount draws) :
    ∀ (fuel step : ℕ) (T : ℚ) (reps : List (GridF × ℤ)),
      T * coolingRate ^ fuel ≤ finalTemperature →
      ∃ r, annealLoop originalPuzzle puzzleDim blockXDim blockYDim coolingRate
        internalIterations swapCount draws step fuel T reps = some r := by
  intro fuel
  induction fuel with
  | zero =>
    intro step T reps hfl
    rw [pow_zero, mul_one] at hfl
    rw [annealLoop, if_neg (by exact not_lt.mpr hfl)]
    exact ⟨_, rfl⟩
  | succ fuel ih =>
    intro step T reps hfl
    by_cases hT : T > finalTemperature
    · rw [annealLoop, if_pos hT]
      obtain ⟨reps', hreps'⟩ := runReplicas_total originalPuzzle puzzleDim blockXDim
        blockYDim T internalIterations swapCount (draws step) (hgood step) reps 0
      rw [hreps']
      show ∃ r, (if ((exchangePass reps').headD default).2 = 0 then
        some (((exchangePass reps').headD default).1, true)
        else annealLoop originalPuzzle puzzleDim blockXDim blockYDim coolingRate
          internalIterations swapCount draws (step + 1) fuel
          (T * coolingRate) (exchangePass reps')) = some r
      by_cases h0 : ((exchangePass reps').headD default).2 = 0
      · exact ⟨_, by rw [if_pos h0]⟩
      · rw [if_neg h0]
        apply ih
        calc T * coolingRate * coolingRate ^ fuel
            = T * coolingRate ^ (fuel + 1) := by ring
          _ ≤ finalTemperature := hfl
    · rw [annealLoop, if_neg hT]
      exact ⟨_, rfl⟩

/-- C8: with a cooling rate in `(0,1)` the outer loop of `anneal` needs only
finitely many steps — a fuel bound driven by the geometric decay of the
temperature to the `1e-5` floor suffices — and whenever the loop exits at the
temperature floor it reports `solved = false` together with rung 0's current
grid as the best-effort result. -/
theorem anneal_outer_loop_bounded (originalPuzzle : GridF) (blockXDim blockYDim : ℕ)
    (baseTemperature coolingRate : ℚ) (internalIterations swapCount R : ℕ)
    (order rng : List ℕ) (draws : ℕ → ℕ → List IterDraw)
    (hc0 : 0 < coolingRate) (hc1 : coolingRate < 1)
    (hiters : 1 ≤ internalIterations) (hR : 1 ≤ R)
    (hblank : ∃ i < blockXDim * blockYDim, ∃ j < blockXDim * blockYDim,
      originalPuzzle i j = 0)
    (hgood : GoodDraws originalPuzzle (blockXDim * blockYDim) internalIterations
      swapCount draws) :
    (∃ fuel r, anneal originalPuzzle blockXDim blockYDim baseTemperature coolingRate
      internalIterations swapCount R order rng draws fuel = some r) ∧
    (∀ (step fuel : ℕ) (T : ℚ) (reps : List (GridF × ℤ)), ¬T > finalTemperature →
      annealLoop originalPuzzle (blockXDim * blockYDim) blockXDim blockYDim
        coolingRate internalIterations swapCount draws step fuel T reps =
        some ((reps.headD default).1, false)) := by
  constructor
  · have hfuel : ∃ fuel : ℕ, baseTemperature * coolingRate ^ fuel ≤ finalTemperature := by
      by_cases hT : baseTemperature ≤ 0
      · refine ⟨0, ?_⟩
        rw [pow_zero, mul_one]
        exact le_trans hT (le_of_lt finalTemperature_pos)
      · push_neg at hT
        obtain ⟨fuel, hpow⟩ := exists_pow_lt_of_lt_one
          (div_pos finalTemperature_pos hT) hc1
        refine ⟨fuel, le_of_lt ?_⟩
        rw [lt_div_iff hT] at hpow
        calc baseTemperature * coolingRate ^ fuel
            = coolingRate ^ fuel * baseTemperature := by ring
          _ < finalTemperature := hpow
    obtain ⟨fuel, hfl⟩ := hfuel
    obtain ⟨r, hr⟩ := annealLoop_total originalPuzzle (blockXDim * blockYDim)
      blockXDim blockYDim coolingRate internalIterations swapCount draws hgood
      fuel 0 baseTemperature _ hfl
    exact ⟨fuel, r, hr⟩
  · intro step fuel T reps hT
    match fuel with
    | 0 => rw [annealLoop, if_neg hT]
    | fuel + 1 => rw [annealLoop, if_neg hT]

theorem anneal_outer_loop_bounded_witness :
    (0 : ℚ) < 1 / 2 ∧ (1 / 2 : ℚ) < 1 ∧
      (∃ i < 2 * 1, ∃ j < 2 * 1, clueGrid2 i j = 0) ∧
      GoodDraws clueGrid2 (2 * 1) 1 1 drawsSolve ∧
      ((∃ fuel r, anneal clueGrid2 2 1 1 (1 / 2) 1 1 1 [1, 2] [2, 0, 0] drawsSolve
          fuel = some r) ∧
        (∀ (step fuel : ℕ) (T : ℚ) (reps : List (GridF × ℤ)), ¬T > finalTemperature →
          annealLoop clueGrid2 (2 * 1) 2 1 (1 / 2) 1 1 drawsSolve step fuel T reps =
            some ((reps.headD default).1, false))) := by
  have hblank : ∃ i < 2 * 1, ∃ j < 2 * 1, clueGrid2 i j = 0 :=
    ⟨0, by omega, 1, by omega, rfl⟩
  have hgood : GoodDraws clueGrid2 (2 * 1) 1 1 drawsSolve := by
    intro step i
    refine ⟨by simp [drawsSolve], ?_⟩
    intro d hd
    simp only [drawsSolve, List.mem_singleton] at hd
    subst hd
    refine ⟨by decide, ?_⟩
    intro pr hpr
    simp only [List.mem_singleton] at hpr
    subst hpr
    exact ⟨by decide, by decide⟩
  obtain ⟨c1, c2⟩ := anneal_outer_loop_bounded clueGrid2 2 1 1 (1 / 2) 1 1 1
    [1, 2] [2, 0, 0] drawsSolve (by norm_num) (by norm_num) (le_refl 1) (le_refl 1)
    hblank hgood
  exact ⟨by norm_num, by norm_num, hblank, hgood, c1, c2⟩

theorem getNeighbour_counts (originalPuzzle : GridF) (puzzleDim : ℕ)
    (hn : 0 < puzzleDim) :
    ∀ (swapCount : ℕ) (cur : GridF) (rs : List (List (ℕ × ℕ) × List (ℕ × ℕ)))
      (g' : GridF),
      getNeighbour cur swapCount originalPuzzle puzzleDim rs = some g' →
      ∀ d, countVal puzzleDim g' d = countVal puzzleDim cur d := by
  intro swapCount
  induction swapCount with
  | zero =>
    intro cur rs g' h d
    rw [getNeighbour] at h
    cases h
    rfl
  | succ k ih =>
    intro cur rs g' h d
    match rs with
    | [] => rw [getNeighbour] at h; cases h
    | s :: rest =>
      rw [getNeighbour] at h
      cases h1 : findFreeCell originalPuzzle puzzleDim s.1 with
      | none => rw [h1] at h; cases h
      | some p1 =>
        cases h2 : findFreeCell originalPuzzle puzzleDim s.2 with
        | none => rw [h1, h2] at h; cases h
        | some p2 =>
          rw [h1, h2] at h
          obtain ⟨hp11, hp12⟩ := findFreeCell_lt originalPuzzle puzzleDim hn s.1 p1 h1
          obtain ⟨hp21, hp22⟩ := findFreeCell_lt originalPuzzle puzzleDim hn s.2 p2 h2
          rw [ih (swapCells cur p1 p2) rest g' h d]
          exact countVal_swapCells puzzleDim cur p1 p2 d hp11 hp12 hp21 hp22

theorem annealerIterAux_cons_eq (originalPuzzle : GridF)
    (puzzleDim blockXDim blockYDim swapCount iters : ℕ) (cur nb : GridF)
    (curCost : ℤ) (d : IterDraw) (rest : List IterDraw)
    (hnb : getNeighbour cur swapCount originalPuzzle puzzleDim d.swaps = some nb) :
    annealerIterAux originalPuzzle puzzleDim blockXDim blockYDim swapCount
        (iters + 1) cur curCost (d :: rest) =
      if costFunction nb blockXDim blockYDim = 0 then some (nb, 0)
      else if costFunction nb blockXDim blockYDim < curCost then
        annealerIterAux originalPuzzle puzzleDim blockXDim blockYDim swapCount
          iters nb (costFunction nb blockXDim blockYDim) rest
      else if d.flip then
        annealerIterAux originalPuzzle puzzleDim blockXDim blockYDim swapCount
          iters nb (costFunction nb blockXDim blockYDim) rest
      else
        annealerIterAux originalPuzzle puzzleDim blockXDim blockYDim swapCount
          iters cur curCost rest := by
  rw [annealerIterAux, hnb]

theorem annealerIterAux_counts (originalPuzzle : GridF)
    (puzzleDim blockXDim blockYDim swapCount : ℕ) (hn : 0 < puzzleDim) :
    ∀ (iters : ℕ) (cur : GridF) (curCost : ℤ) (draws : List IterDraw)
      (g' : GridF) (c' : ℤ),
      annealerIterAux originalPuzzle puzzleDim blockXDim blockYDim swapCount
        iters cur curCost draws = some (g', c') →
      ∀ d, countVal puzzleDim g' d = countVal puzzleDim cur d := by
  intro iters
  induction iters with
  | zero =>
    intro cur curCost draws g' c' h d
    rw [annealerIterAux] at h
    cases h
    rfl
  | succ it ih =>
    intro cur curCost draws g' c' h d
    match draws with
    | [] => rw [annealerIterAux] at h; cases h
    | dr :: rest =>
      cases hnb : getNeighbour cur swapCount originalPuzzle puzzleDim dr.swaps with
      | none => rw [annealerIterAux, hnb] at h; cases h
      | some nb =>
        rw [annealerIterAux_cons_eq originalPuzzle puzzleDim blockXDim blockYDim
          swapCount it cur nb curCost dr rest hnb] at h
        have hnbcnt := getNeighbour_counts originalPuzzle puzzleDim hn swapCount cur
          dr.swaps nb hnb
        split at h
        · cases h
          exact hnbcnt d
        · split at h
          · rw [ih nb _ rest g' c' h d, hnbcnt d]
          · split at h
            · rw [ih nb _ rest g' c' h d, hnbcnt d]
            · exact ih cur curCost rest g' c' h d

theorem runReplicas_counts (originalPuzzle : GridF)
    (puzzleDim blockXDim blockYDim : ℕ) (T : ℚ) (internalIterations swapCount : ℕ)
    (ds : ℕ → List IterDraw) (hn : 0 < puzzleDim) :
    ∀ (reps : List (GridF × ℤ)) (i : ℕ) (reps' : List (GridF × ℤ)),
      runReplicas originalPuzzle puzzleDim blockXDim blockYDim T internalIterations
        swapCount ds reps i = some reps' →
      (∀ r ∈ reps, ∀ d, 1 ≤ d → d ≤ puzzleDim →
        countVal puzzleDim r.1 d = puzzleDim) →
      (∀ r' ∈ reps', ∀ d, 1 ≤ d → d ≤ puzzleDim →
        countVal puzzleDim r'.1 d = puzzleDim) ∧ reps'.length = reps.length := by
  intro reps
  induction reps with
  | nil =>
    intro i reps' h _
    rw [runReplicas] at h
    cases h
    exact ⟨fun r hr => absurd hr (List.not_mem_nil r), rfl⟩
  | cons r rest ih =>
    intro i reps' h hall
    rw [runReplicas] at h
    unfold annealerInternalIterator at h
    cases hit : annealerIterAux originalPuzzle puzzleDim blockXDim blockYDim
        swapCount internalIterations r.1 (costFunction r.1 blockXDim blockYDim)
        (ds i) with
    | none => rw [hit] at h; cases h
    | some r0 =>
      rw [hit] at h
      cases hrec : runReplicas originalPuzzle puzzleDim blockXDim blockYDim T
          internalIterations swapCount ds rest (i + 1) with
      | none => rw [hrec] at h; cases h
      | some rest' =>
        rw [hrec] at h
        cases h
        obtain ⟨ihcnt, ihlen⟩ := ih (i + 1) rest' hrec
          (fun q hq => hall q (List.mem_cons_of_mem r hq))
        have hr0 : ∀ d, 1 ≤ d → d ≤ puzzleDim →
            countVal puzzleDim r0.1 d = puzzleDim := by
          intro d hd1 hd2
          rw [annealerIterAux_counts originalPuzzle puzzleDim blockXDim blockYDim
            swapCount hn internalIterations r.1 _ (ds i) r0.1 r0.2 (by
              rw [← hit]) d]
          exact hall r (List.mem_cons_self r rest) d hd1 hd2
        refine ⟨?_, by simp [ihlen]⟩
        intro q hq
        rcases List.mem_cons.mp hq with rfl | hq2
        · exact hr0
        · exact ihcnt q hq2

theorem annealLoop_succ_eq (originalPuzzle : GridF)
    (puzzleDim blockXDim blockYDim : ℕ) (coolingRate : ℚ)
    (internalIterations swapCount : ℕ) (draws : ℕ → ℕ → List IterDraw)
    (step fuel : ℕ) (T : ℚ) (reps reps' : List (GridF × ℤ))
    (hT : T > finalTemperature)
    (hrr : runReplicas originalPuzzle puzzleDim blockXDim blockYDim T
      internalIterations swapCount (draws step) reps 0 = some reps') :
    annealLoop originalPuzzle puzzleDim blockXDim blockYDim coolingRate
        internalIterations swapCount draws step (fuel + 1) T reps =
      if ((exchangePass reps').headD default).2 = 0 then
        some (((exchangePass reps').headD default).1, true)
      else
        annealLoop originalPuzzle puzzleDim blockXDim blockYDim coolingRate
          internalIterations swapCount draws (step + 1) fuel (T * coolingRate)
          (exchangePass reps') := by
  rw [annealLoop, if_pos hT, hrr]

theorem annealLoop_counts (originalPuzzle : GridF)
    (puzzleDim blockXDim blockYDim : ℕ) (coolingRate : ℚ)
    (internalIterations swapCount : ℕ) (draws : ℕ → ℕ → List IterDraw)
    (hn : 0 < puzzleDim) :
    ∀ (fuel step : ℕ) (T : ℚ) (reps : List (GridF × ℤ)) (g : GridF) (b : Bool),
      (∀ r ∈ reps, ∀ d, 1 ≤ d → d ≤ puzzleDim →
        countVal puzzleDim r.1 d = puzzleDim) →
      reps ≠ [] →
      annealLoop originalPuzzle puzzleDim blockXDim blockYDim coolingRate
        internalIterations swapCount draws step fuel T reps = some (g, b) →
      ∀ d, 1 ≤ d → d ≤ puzzleDim → countVal puzzleDim g d = puzzleDim := by
  have hhead : ∀ (reps : List (GridF × ℤ)), reps ≠ [] → reps.headD default ∈ reps := by
    intro reps hne
    match reps with
    | [] => exact absurd rfl hne
    | r :: rest => exact List.mem_cons_self r rest
  intro fuel
  induction fuel with
  | zero =>
    intro step T reps g b hall hne h
    rw [annealLoop] at h
    split at h
    · cases h
    · cases h
      exact hall _ (hhead reps hne)
  | succ fuel ih =>
    intro step T reps g b hall hne h
    by_cases hT : T > finalTemperature
    · cases hrr : runReplicas originalPuzzle puzzleDim blockXDim blockYDim T
          internalIterations swapCount (draws step) reps 0 with
      | none => rw [annealLoop, if_pos hT, hrr] at h; cases h
      | some reps' =>
        rw [annealLoop_succ_eq originalPuzzle puzzleDim blockXDim blockYDim
          coolingRate internalIterations swapCount draws step fuel T reps reps'
          hT hrr] at h
        obtain ⟨hcnt', hlen'⟩ := runReplicas_counts originalPuzzle puzzleDim
          blockXDim blockYDim T internalIterations swapCount (draws step) hn
          reps 0 reps' hrr hall
        have hperm := exchangePass_permutes reps'
        have hecnt : ∀ r ∈ exchangePass reps', ∀ d, 1 ≤ d → d ≤ puzzleDim →
            countVal puzzleDim r.1 d = puzzleDim :=
          fun r hr => hcnt' r (hperm.mem_iff.mp hr)
        have hene : exchangePass reps' ≠ [] := by
          intro he
          have h1 : reps'.length = 0 := by rw [← hperm.length_eq, he]; rfl
          rw [hlen'] at h1
          exact hne (List.length_eq_zero.mp h1)
        split at h
        · cases h
          exact hecnt _ (hhead _ hene)
        · exact ih (step + 1) (T * coolingRate) (exchangePass reps') g b hecnt hene h
    · rw [annealLoop, if_neg hT] at h
      cases h
      exact hall _ (hhead reps hne)

/-- C10: every grid the engine returns satisfies the global count invariant:
each digit `1..n` occurs exactly `n` times.  The initializer establishes the
invariant, `getNeighbour` only swaps two cells (so every proposed, accepted or
exchanged grid keeps it), and the exchange pass only permutes replicas. -/
theorem anneal_digit_count_invariant (originalPuzzle : GridF)
    (blockXDim blockYDim : ℕ) (baseTemperature coolingRate : ℚ)
    (internalIterations swapCount R : ℕ) (order rng : List ℕ)
    (draws : ℕ → ℕ → List IterDraw) (fuel : ℕ) (g : GridF) (b : Bool)
    (hvals : ∀ i < blockXDim * blockYDim, ∀ j < blockXDim * blockYDim,
      originalPuzzle i j ≤ blockXDim * blockYDim)
    (hcounts : ∀ d, 1 ≤ d → d ≤ blockXDim * blockYDim →
      countVal (blockXDim * blockYDim) originalPuzzle d ≤ blockXDim * blockYDim)
    (hord : order.Perm (List.range' 1 (blockXDim * blockYDim)))
    (hR : 1 ≤ R)
    (hblank : ∃ i < blockXDim * blockYDim, ∃ j < blockXDim * blockYDim,
      originalPuzzle i j = 0)
    (hres : anneal originalPuzzle blockXDim blockYDim baseTemperature coolingRate
      internalIterations swapCount R order rng draws fuel = some (g, b)) :
    ∀ d, 1 ≤ d → d ≤ blockXDim * blockYDim →
      countVal (blockXDim * blockYDim) g d = blockXDim * blockYDim := by
  obtain ⟨i0, hi0, j0, hj0, _⟩ := hblank
  have hn : 0 < blockXDim * blockYDim := by omega
  have hinit := (randomInitialization_props originalPuzzle (blockXDim * blockYDim)
    order rng hvals hcounts hord).2
  unfold anneal at hres
  apply annealLoop_counts originalPuzzle (blockXDim * blockYDim) blockXDim blockYDim
    coolingRate internalIterations swapCount draws hn fuel 0 baseTemperature _ g b
    ?_ ?_ hres
  · intro r hr d hd1 hd2
    rw [List.eq_of_mem_replicate hr]
    exact hinit d hd1 hd2
  · intro he
    have := congrArg List.length he
    simp at this
    omega

set_option maxRecDepth 40000 in
theorem anneal_digit_count_invariant_witness :
    (∀ i < 2 * 1, ∀ j < 2 * 1, clueGrid2 i j ≤ 2 * 1) ∧
      (∀ d, 1 ≤ d → d ≤ 2 * 1 → countVal (2 * 1) clueGrid2 d ≤ 2 * 1) ∧
      List.Perm [1, 2] (List.range' 1 (2 * 1)) ∧
      (∃ i < 2 * 1, ∃ j < 2 * 1, clueGrid2 i j = 0) ∧
      ∃ p, anneal clueGrid2 2 1 1 (1 / 2) 1 1 1 [1, 2] [2, 0, 0] drawsSolve 1 =
          some p ∧
        ∀ d, 1 ≤ d → d ≤ 2 * 1 → countVal (2 * 1) p.1 d = 2 * 1 := by
  have h1 : ∀ i < 2 * 1, ∀ j < 2 * 1, clueGrid2 i j ≤ 2 * 1 := by decide
  have h2 : ∀ d, 1 ≤ d → d ≤ 2 * 1 → countVal (2 * 1) clueGrid2 d ≤ 2 * 1 := by
    intro d hd1 hd2
    interval_cases d <;> decide
  have h3 : List.Perm [1, 2] (List.range' 1 (2 * 1)) := List.Perm.refl _
  have h4 : ∃ i < 2 * 1, ∃ j < 2 * 1, clueGrid2 i j = 0 :=
    ⟨0, by omega, 1, by omega, rfl⟩
  have hsome : (anneal clueGrid2 2 1 1 (1 / 2) 1 1 1 [1, 2] [2, 0, 0] drawsSolve
      1).isSome = true := by decide
  obtain ⟨p, hp⟩ := Option.isSome_iff_exists.mp hsome
  refine ⟨h1, h2, h3, h4, p, hp, ?_⟩
  obtain ⟨g, b⟩ := p
  exact anneal_digit_count_invariant clueGrid2 2 1 1 (1 / 2) 1 1 1 [1, 2] [2, 0, 0]
    drawsSolve 1 g b h1 h2 h3 (le_refl 1) h4 hp
